import Mathlib

/-!
Shallow embedding of the pen-audit repository's core logic, together with
proofs checking the natural-language specification against it.

Embedded modules:
* `src/pen_audit/scoring.py`   — `classify_screen_tier`, `compute_completion`
* `src/pen_audit/state.py`     — `merge_scan`, `resolve_feature`
* `src/pen_audit/codebase_matcher.py` — `_slugify`, `_is_stub_page`
* `src/pen_audit/pen_parser.py` — `_parse_node`

Modelling conventions:
* Python dicts that serve as keyed maps (the features map, `by_tier`,
  `feature_counts`, JSON objects) are modelled as association lists in
  insertion order; lookups take the first matching key, exactly as a dict
  with unique keys behaves.
* Python strings are Lean `String`s; `str.lower` is modelled per-character
  with `Char.toLower` (exact on ASCII, which is all the classifier and
  matcher logic keys on), and `str.strip` strips the ASCII whitespace
  characters.
* Python floats are modelled as rationals; `round(x, 1)` is modelled by
  `round1` below.  Spec and code use the identical rounding expression, so
  every claim compares the same `round1` on both sides.
-/

set_option autoImplicit false

namespace PenAudit

/-! ## scoring.py -/

/-- `TIER_WEIGHTS.get(tier, 2)` for the dict `{1: 1, 2: 2, 3: 4, 4: 8}`
(scoring.py line 27). -/
def TIER_WEIGHTS (tier : Nat) : Nat :=
  if tier = 1 then 1
  else if tier = 2 then 2
  else if tier = 3 then 4
  else if tier = 4 then 8
  else 2

/-- `feature_counts.get(ind, 0)` on the feature-count mapping. -/
def getCount (fc : List (String × Nat)) (k : String) : Nat :=
  (fc.lookup k).getD 0

/-- `t4_indicators` (scoring.py line 41). -/
def t4_indicators : List String :=
  ["camera", "scanner", "map", "video", "realtime", "animation", "device_api"]

/-- `t3_indicators` (scoring.py line 46). -/
def t3_indicators : List String :=
  ["charts", "timers", "builders", "drag_drop", "swipe", "tabs_complex"]

/-- `t2_indicators` (scoring.py line 51). -/
def t2_indicators : List String :=
  ["forms", "lists", "cards", "crud", "detail_view", "modals", "tabs"]

/-- `classify_screen_tier` (scoring.py lines 30-56). -/
def classify_screen_tier (fc : List (String × Nat)) : Nat :=
  if t4_indicators.any (fun ind => 0 < getCount fc ind) then 4
  else if t3_indicators.any (fun ind => 0 < getCount fc ind) then 3
  else if t2_indicators.any (fun ind => 0 < getCount fc ind) then 2
  else 1

/-- The tier classifier exactly as the claim words it: the tier-3 indicator
set is only the five keys the spec lists, without `tabs_complex`.  This is
the spec-side definition used to compare against `classify_screen_tier`. -/
def tierClaimed (fc : List (String × Nat)) : Nat :=
  if ["camera", "scanner", "map", "video", "realtime", "animation",
      "device_api"].any (fun ind => 0 < getCount fc ind) then 4
  else if ["charts", "timers", "builders", "drag_drop",
      "swipe"].any (fun ind => 0 < getCount fc ind) then 3
  else if ["forms", "lists", "cards", "crud", "detail_view", "modals",
      "tabs"].any (fun ind => 0 < getCount fc ind) then 2
  else 1

/-- The amended spec-side tier classifier: same decision order, with
`tabs_complex` included in the tier-3 indicator set. -/
def tierSpecAmended (fc : List (String × Nat)) : Nat :=
  if ["camera", "scanner", "map", "video", "realtime", "animation",
      "device_api"].any (fun ind => 0 < getCount fc ind) then 4
  else if ["charts", "timers", "builders", "drag_drop", "swipe",
      "tabs_complex"].any (fun ind => 0 < getCount fc ind) then 3
  else if ["forms", "lists", "cards", "crud", "detail_view", "modals",
      "tabs"].any (fun ind => 0 < getCount fc ind) then 2
  else 1

/-- A detected feature record, as built by `make_feature` (state.py
lines 111-136) and stored in `state["features"]`.  The `detail` payload dict
is modelled as a string association list. -/
structure Feature where
  id : String
  detector : String
  screen_id : String
  name : String
  tier : Nat
  category : String
  summary : String
  detail : List (String × String)
  status : String
  first_seen : String
  last_seen : String
deriving Repr, DecidableEq

/-- One `by_tier` entry value: the dict `{"total": N, "done": N}`. -/
structure TierStat where
  total : Nat
  done : Nat
deriving Repr, DecidableEq

/-- `round(x, 1)`: rounding to one decimal place.  Python's float `round`
performs round-half-to-even on binary floats; the claims only ever compare
the spec's rounding expression with the code's identical expression, so one
fixed exact rounding on rationals serves both sides. -/
def round1 (x : ℚ) : ℚ :=
  (round (10 * x) : ℤ) / 10

/-- The result dict of `compute_completion` (scoring.py lines 105-114).
`open_count` models the `"open"` entry. -/
structure Stats where
  total : Nat
  implemented : Nat
  deferred : Nat
  out_of_scope : Nat
  open_count : Int
  pct : ℚ
  by_tier : List (Nat × TierStat)
  effort_score : ℚ
deriving Repr, DecidableEq

/-- `by_tier.setdefault(tier, ...)` followed by the two increments: bump the
tier's entry, inserting `(tier, total 0, done 0)` first when absent. -/
def bumpTier (bt : List (Nat × TierStat)) (tier : Nat) (done : Bool) :
    List (Nat × TierStat) :=
  match bt with
  | [] => [(tier, ⟨1, if done then 1 else 0⟩)]
  | (t, ts) :: rest =>
    if t = tier then
      (t, ⟨ts.total + 1, ts.done + (if done then 1 else 0)⟩) :: rest
    else
      (t, ts) :: bumpTier rest tier done

/-- Accumulator of the `for f in features` loop of `compute_completion`
(scoring.py lines 74-89). -/
structure CompAcc where
  by_tier : List (Nat × TierStat)
  total : Nat
  implemented : Nat
  deferred : Nat
  out_of_scope : Nat

/-- One iteration of the `compute_completion` loop body. -/
def compStep (acc : CompAcc) (f : Feature) : CompAcc :=
  let done := f.status = "implemented"
  { by_tier := bumpTier acc.by_tier f.tier done
    total := acc.total + 1
    implemented := acc.implemented + (if done then 1 else 0)
    deferred := acc.deferred + (if f.status = "deferred" then 1 else 0)
    out_of_scope := acc.out_of_scope + (if f.status = "out_of_scope" then 1 else 0) }

/-- `compute_completion` (scoring.py lines 59-114). -/
def compute_completion (features : List Feature) : Stats :=
  let a := features.foldl compStep ⟨[], 0, 0, 0, 0⟩
  let oc : Int := (a.total : Int) - a.implemented - a.deferred - a.out_of_scope
  let pct : ℚ :=
    if 0 < a.total then round1 ((a.implemented : ℚ) / (a.total : ℚ) * 100) else 0
  let total_effort := (a.by_tier.map (fun p => TIER_WEIGHTS p.1 * p.2.total)).sum
  let done_effort := (a.by_tier.map (fun p => TIER_WEIGHTS p.1 * p.2.done)).sum
  let effort_score : ℚ :=
    if 0 < total_effort then
      round1 ((done_effort : ℚ) / (total_effort : ℚ) * 100)
    else 0
  { total := a.total
    implemented := a.implemented
    deferred := a.deferred
    out_of_scope := a.out_of_scope
    open_count := oc
    pct := pct
    by_tier := a.by_tier
    effort_score := effort_score }

/-- Spec-side: number of features with status `"implemented"`. -/
def implementedCount (fs : List Feature) : Nat :=
  fs.countP (fun f => f.status = "implemented")

/-- Spec-side: total effort, summing each feature's tier weight directly. -/
def effortAll (fs : List Feature) : Nat :=
  (fs.map (fun f => TIER_WEIGHTS f.tier)).sum

/-- Spec-side: done effort, summing tier weights of implemented features. -/
def effortDone (fs : List Feature) : Nat :=
  ((fs.filter (fun f => f.status = "implemented")).map
    (fun f => TIER_WEIGHTS f.tier)).sum

/-! ## Lemmas about the `compute_completion` loop -/

theorem bumpTier_sum_total (bt : List (Nat × TierStat)) (tier : Nat) (d : Bool) :
    ((bumpTier bt tier d).map (fun p => p.2.total)).sum
      = (bt.map (fun p => p.2.total)).sum + 1 := by
  induction bt with
  | nil => simp [bumpTier]
  | cons hd tl ih =>
    obtain ⟨t, ts⟩ := hd
    by_cases h : t = tier <;> simp [bumpTier, h, ih] <;> omega

theorem bumpTier_sum_done (bt : List (Nat × TierStat)) (tier : Nat) (d : Bool) :
    ((bumpTier bt tier d).map (fun p => p.2.done)).sum
      = (bt.map (fun p => p.2.done)).sum + (if d then 1 else 0) := by
  induction bt with
  | nil => simp [bumpTier]
  | cons hd tl ih =>
    obtain ⟨t, ts⟩ := hd
    by_cases h : t = tier <;> simp [bumpTier, h, ih] <;> omega

theorem bumpTier_sum_wtotal (bt : List (Nat × TierStat)) (tier : Nat) (d : Bool) :
    ((bumpTier bt tier d).map (fun p => TIER_WEIGHTS p.1 * p.2.total)).sum
      = (bt.map (fun p => TIER_WEIGHTS p.1 * p.2.total)).sum + TIER_WEIGHTS tier := by
  induction bt with
  | nil => simp [bumpTier]
  | cons hd tl ih =>
    obtain ⟨t, ts⟩ := hd
    by_cases h : t = tier <;> simp [bumpTier, h, ih] <;> ring_nf <;> omega

theorem bumpTier_sum_wdone (bt : List (Nat × TierStat)) (tier : Nat) (d : Bool) :
    ((bumpTier bt tier d).map (fun p => TIER_WEIGHTS p.1 * p.2.done)).sum
      = (bt.map (fun p => TIER_WEIGHTS p.1 * p.2.done)).sum
        + (if d then TIER_WEIGHTS tier else 0) := by
  induction bt with
  | nil => cases d <;> simp [bumpTier]
  | cons hd tl ih =>
    obtain ⟨t, ts⟩ := hd
    by_cases h : t = tier
    · cases d <;> simp [bumpTier, h] <;> ring
    · cases d <;> simp [bumpTier, h] at ih ⊢ <;> simp [ih] <;> omega

theorem compFold_total (fs : List Feature) (acc : CompAcc) :
    (fs.foldl compStep acc).total = acc.total + fs.length := by
  induction fs generalizing acc with
  | nil => simp
  | cons f rest ih => simp [ih, compStep]; omega

theorem compFold_implemented (fs : List Feature) (acc : CompAcc) :
    (fs.foldl compStep acc).implemented
      = acc.implemented + fs.countP (fun f => f.status = "implemented") := by
  induction fs generalizing acc with
  | nil => simp
  | cons f rest ih =>
    simp [ih, compStep, List.countP_cons]
    by_cases h : f.status = "implemented" <;> simp [h] <;> omega

theorem compFold_deferred (fs : List Feature) (acc : CompAcc) :
    (fs.foldl compStep acc).deferred
      = acc.deferred + fs.countP (fun f => f.status = "deferred") := by
  induction fs generalizing acc with
  | nil => simp
  | cons f rest ih =>
    simp [ih, compStep, List.countP_cons]
    by_cases h : f.status = "deferred" <;> simp [h] <;> omega

theorem compFold_out_of_scope (fs : List Feature) (acc : CompAcc) :
    (fs.foldl compStep acc).out_of_scope
      = acc.out_of_scope + fs.countP (fun f => f.status = "out_of_scope") := by
  induction fs generalizing acc with
  | nil => simp
  | cons f rest ih =>
    simp [ih, compStep, List.countP_cons]
    by_cases h : f.status = "out_of_scope" <;> simp [h] <;> omega

theorem compFold_sum_total (fs : List Feature) (acc : CompAcc) :
    ((fs.foldl compStep acc).by_tier.map (fun p => p.2.total)).sum
      = (acc.by_tier.map (fun p => p.2.total)).sum + fs.length := by
  induction fs generalizing acc with
  | nil => simp
  | cons f rest ih => simp [ih, compStep, bumpTier_sum_total]; omega

theorem compFold_sum_wtotal (fs : List Feature) (acc : CompAcc) :
    ((fs.foldl compStep acc).by_tier.map (fun p => TIER_WEIGHTS p.1 * p.2.total)).sum
      = (acc.by_tier.map (fun p => TIER_WEIGHTS p.1 * p.2.total)).sum + effortAll fs := by
  induction fs generalizing acc with
  | nil => simp [effortAll]
  | cons f rest ih =>
    simp [ih, compStep, bumpTier_sum_wtotal, effortAll]
    omega

theorem compFold_sum_wdone (fs : List Feature) (acc : CompAcc) :
    ((fs.foldl compStep acc).by_tier.map (fun p => TIER_WEIGHTS p.1 * p.2.done)).sum
      = (acc.by_tier.map (fun p => TIER_WEIGHTS p.1 * p.2.done)).sum + effortDone fs := by
  induction fs generalizing acc with
  | nil => simp [effortDone]
  | cons f rest ih =>
    by_cases h : f.status = "implemented" <;>
      simp [ih, compStep, bumpTier_sum_wdone, effortDone, h] <;> omega

theorem statusIte (s : String) :
    (if s = "implemented" then (1 : Nat) else 0)
      + (if s = "deferred" then 1 else 0)
      + (if s = "out_of_scope" then 1 else 0)
      + (if ¬(s = "implemented" ∨ s = "deferred" ∨ s = "out_of_scope") then 1 else 0)
      = 1 := by
  by_cases h1 : s = "implemented"
  · subst h1; decide
  · by_cases h2 : s = "deferred"
    · subst h2; decide
    · by_cases h3 : s = "out_of_scope"
      · subst h3; decide
      · simp [h1, h2, h3]

theorem status_partition (fs : List Feature) :
    fs.countP (fun f => f.status = "implemented")
      + fs.countP (fun f => f.status = "deferred")
      + fs.countP (fun f => f.status = "out_of_scope")
      + fs.countP (fun f => ¬(f.status = "implemented" ∨ f.status = "deferred"
            ∨ f.status = "out_of_scope"))
      = fs.length := by
  induction fs with
  | nil => simp
  | cons f rest ih =>
    simp only [List.countP_cons, List.length_cons, decide_eq_true_eq]
    have hs := statusIte f.status
    omega

/-! ## Claim C5 — tier classifier decision order -/

/-- C5 counterexample: the feature-count mapping with only `tabs_complex`
positive has count 0 on every tier-4 key and on every tier-3 key the claim
lists, yet `classify_screen_tier` returns 3 — the code's tier-3 indicator
list also contains `tabs_complex`, so the claim's "never yields tier 3" is
false as stated. -/
theorem c5_counterexample :
    classify_screen_tier [("tabs_complex", 1)] = 3
    ∧ (["camera", "scanner", "map", "video", "realtime", "animation", "device_api",
        "charts", "timers", "builders", "drag_drop", "swipe"].all
        (fun k => getCount [("tabs_complex", 1)] k = 0)) = true := by
  decide

/-- C5 (amended): `classify_screen_tier` evaluates the spec's decision order
with the tier-3 indicator set `{charts, timers, builders, drag_drop, swipe,
tabs_complex}` (the code's set includes `tabs_complex`); and a mapping with
camera > 0 is always tier 4 regardless of other counts. -/
theorem c5_tier_decision_order (fc : List (String × Nat)) :
    classify_screen_tier fc = tierSpecAmended fc
    ∧ (0 < getCount fc "camera" → classify_screen_tier fc = 4) := by
  constructor
  · rfl
  · intro h
    have h4 : t4_indicators.any (fun ind => 0 < getCount fc ind) = true := by
      simp [t4_indicators]
      exact Or.inl h
    simp [classify_screen_tier, h4]

/-- Witness for `c5_tier_decision_order` at a concrete mapping in which
camera co-occurs with form patterns. -/
theorem c5_tier_decision_order_witness :
    classify_screen_tier [("camera", 2), ("forms", 5)] = 4 :=
  (c5_tier_decision_order [("camera", 2), ("forms", 5)]).2 (by decide)

/-! ## Claim C7 — aggregate statistics -/

/-- C7: for every feature list, the per-tier totals of `compute_completion`
sum to the overall total, the total is the number of features, the completion
percentage is `round(implemented/total*100, 1)` when total > 0 and 0.0
otherwise, and the effort score is `round(doneEffort/totalEffort*100, 1)`
with the per-tier weights 1, 2, 4, 8 (0.0 when the total effort is 0). -/
theorem c7_compute_completion_aggregates (fs : List Feature) :
    (((compute_completion fs).by_tier.map (fun p => p.2.total)).sum = fs.length)
    ∧ (compute_completion fs).total = fs.length
    ∧ (compute_completion fs).pct =
        (if 0 < fs.length then
          round1 ((implementedCount fs : ℚ) / (fs.length : ℚ) * 100) else 0)
    ∧ (compute_completion fs).effort_score =
        (if 0 < effortAll fs then
          round1 ((effortDone fs : ℚ) / (effortAll fs : ℚ) * 100) else 0) := by
  have h1 := compFold_total fs ⟨[], 0, 0, 0, 0⟩
  have h2 := compFold_implemented fs ⟨[], 0, 0, 0, 0⟩
  have h3 := compFold_sum_total fs ⟨[], 0, 0, 0, 0⟩
  have h4 := compFold_sum_wtotal fs ⟨[], 0, 0, 0, 0⟩
  have h5 := compFold_sum_wdone fs ⟨[], 0, 0, 0, 0⟩
  simp at h1 h2 h3 h4 h5
  refine ⟨?_, ?_, ?_, ?_⟩ <;>
    simp [compute_completion, implementedCount, h1, h2, h3, h4, h5]

/-! ## Claim C10 — everything outside the three resolved statuses is open -/

/-- C10: the `"open"` entry of the aggregate statistics equals the number of
features whose status is none of implemented/deferred/out_of_scope (so
`removed_from_design` counts as open), and such features stay in both
denominators: the total is the full feature count and the by-tier weighted
total equals the weighted sum over all features. -/
theorem c10_open_count (fs : List Feature) :
    (compute_completion fs).open_count =
      (fs.countP (fun f => ¬(f.status = "implemented" ∨ f.status = "deferred"
          ∨ f.status = "out_of_scope")) : Int)
    ∧ (compute_completion fs).total = fs.length
    ∧ ((compute_completion fs).by_tier.map
        (fun p => TIER_WEIGHTS p.1 * p.2.total)).sum = effortAll fs := by
  have h1 := compFold_total fs ⟨[], 0, 0, 0, 0⟩
  have h2 := compFold_implemented fs ⟨[], 0, 0, 0, 0⟩
  have hd := compFold_deferred fs ⟨[], 0, 0, 0, 0⟩
  have ho := compFold_out_of_scope fs ⟨[], 0, 0, 0, 0⟩
  have h4 := compFold_sum_wtotal fs ⟨[], 0, 0, 0, 0⟩
  have hp := status_partition fs
  simp at h1 h2 hd ho h4
  refine ⟨?_, ?_, ?_⟩
  · simp only [compute_completion]
    simp only [h1, h2, hd, ho]
    omega
  · simp [compute_completion, h1]
  · simp [compute_completion, h4]

/-! ## codebase_matcher.py — characters, slugify, stub detection -/

/-- Python's ASCII whitespace characters, the ones `str.strip` and the regex
class `\s` match on the ASCII text this module handles. -/
def isSpaceChar (c : Char) : Bool :=
  c = ' ' || c = '\t' || c = '\n' || c = '\r' || c = Char.ofNat 11 || c = Char.ofNat 12

/-- The regex class `[a-z]`. -/
def isLowerAZ (c : Char) : Bool :=
  'a' ≤ c && c ≤ 'z'

/-- The regex class `[0-9]`. -/
def isDigit09 (c : Char) : Bool :=
  '0' ≤ c && c ≤ '9'

/-- `str.lower` per character (CPython's ASCII case mapping; slugify and the
stub matcher only key on ASCII, where this is exact). -/
def pyLower (c : Char) : Char :=
  if 'A' ≤ c && c ≤ 'Z' then Char.ofNat (c.toNat + 32) else c

/-- `str.strip`-style trimming: drop leading and trailing characters
satisfying `p`. -/
def stripChars (p : Char → Bool) (l : List Char) : List Char :=
  ((l.dropWhile p).reverse.dropWhile p).reverse

/-- `re.sub` of the one-or-more class `p` by the single character `o`:
replace every maximal run of characters satisfying `p` by one `o`.  The
boolean records whether the previous character was inside such a run. -/
def squashRuns (p : Char → Bool) (o : Char) : List Char → Bool → List Char
  | [], _ => []
  | c :: rest, prevRun =>
    if p c then
      (if prevRun then [] else [o]) ++ squashRuns p o rest true
    else
      c :: squashRuns p o rest false

/-- `_slugify` (codebase_matcher.py lines 14-19) on the character list:
lower, strip, delete `[^a-z0-9\s-]`, replace `[\s_]+` runs by `-`, collapse
`-+` runs, strip hyphens. -/
def slugifyChars (l : List Char) : List Char :=
  let s0 := l.map pyLower
  let s1 := stripChars isSpaceChar s0
  let s2 := s1.filter (fun c => isLowerAZ c || isDigit09 c || isSpaceChar c || c = '-')
  let s3 := squashRuns (fun c => isSpaceChar c || c = '_') '-' s2 false
  let s4 := squashRuns (fun c => c = '-') '-' s3 false
  stripChars (fun c => c = '-') s4

/-- `_slugify` on strings. -/
def _slugify (name : String) : String :=
  ⟨slugifyChars name.toList⟩

/-- Does `p` lead the list `l` (substring check helper)? -/
def leadsWith : List Char → List Char → Bool
  | [], _ => true
  | _ :: _, [] => false
  | a :: p, b :: l => a = b && leadsWith p l

/-- Python's `p in s` substring containment on character lists. -/
def subOf : List Char → List Char → Bool
  | p, [] => p.isEmpty
  | p, c :: rest' =>
    leadsWith p (c :: rest') || subOf p rest'

/-- Python `str.splitlines` for `\n`-separated text (the line terminator
this repository's page files use): split at newlines, with no empty final
line for text ending in a newline, and `[]` for empty text. -/
def splitLinesAux : List Char → List Char → List (List Char)
  | [], cur => [cur.reverse]
  | c :: rest, cur =>
    if c = '\n' then
      match rest with
      | [] => [cur.reverse]
      | _ => cur.reverse :: splitLinesAux rest []
    else
      splitLinesAux rest (c :: cur)

/-- `str.splitlines` entry point. -/
def splitLines (l : List Char) : List (List Char) :=
  match l with
  | [] => []
  | _ => splitLinesAux l []

/-- `_is_stub_page` (codebase_matcher.py lines 57-72) on the page file's
content (the `OSError` branch for an unreadable file is outside the
embedding; the claim quantifies over contents). -/
def _is_stub_page (content : String) : Bool :=
  let lines := splitLines (stripChars isSpaceChar content.toList)
  if lines.length < 10 then true
  else if subOf ("coming soon".toList) (content.toList.map pyLower)
      && lines.length < 30 then true
  else false

/-- A non-blank line: one with at least one non-whitespace character. -/
def nonBlankLine (ln : List Char) : Bool :=
  ln.any (fun c => !(isSpaceChar c))

/-- The stub rule exactly as the claim words it: fewer than 10 *non-blank*
lines, or the content contains "coming soon" and has fewer than 30 lines.
Spec-side definition, compared against `_is_stub_page`. -/
def stubClaimed (content : String) : Bool :=
  let lines := splitLines (stripChars isSpaceChar content.toList)
  (lines.countP nonBlankLine < 10)
    || (subOf ("coming soon".toList) (content.toList.map pyLower)
        && lines.length < 30)

/-- The amended stub rule: fewer than 10 lines in total — blank interior
lines included, after trimming leading and trailing whitespace — or the
content contains "coming soon" case-insensitively and has fewer than 30
such lines. -/
def stubSpecAmended (content : String) : Bool :=
  let lineCount := (splitLines (stripChars isSpaceChar content.toList)).length
  (lineCount < 10)
    || (subOf ("coming soon".toList) (content.toList.map pyLower)
        && lineCount < 30)

/-! ## Lemmas for slugify -/

/-- The slug character class: lowercase ASCII letter, digit, or hyphen. -/
def slugChar (c : Char) : Bool :=
  isLowerAZ c || isDigit09 c || c = '-'

/-- No two adjacent hyphens. -/
def noDoubleHyphen (l : List Char) : Prop :=
  List.Chain' (fun a c => ¬(a = '-' ∧ c = '-')) l

theorem mem_squashRuns (p : Char → Bool) (o : Char) :
    ∀ (l : List Char) (b : Bool) (c : Char), c ∈ squashRuns p o l b →
      c = o ∨ (c ∈ l ∧ p c = false) := by
  intro l
  induction l with
  | nil => intro b c h; simp [squashRuns] at h
  | cons a rest ih =>
    intro b c h
    by_cases hp : p a
    · cases b <;> simp [squashRuns, hp] at h
      · rcases h with h | h
        · exact Or.inl h
        · rcases ih true c h with h' | ⟨hm, hf⟩
          · exact Or.inl h'
          · exact Or.inr ⟨List.mem_cons_of_mem a hm, hf⟩
      · rcases ih true c h with h' | ⟨hm, hf⟩
        · exact Or.inl h'
        · exact Or.inr ⟨List.mem_cons_of_mem a hm, hf⟩
    · simp [squashRuns, hp] at h
      rcases h with h | h
      · subst h
        exact Or.inr ⟨List.mem_cons_self c rest, by simpa using hp⟩
      · rcases ih false c h with h' | ⟨hm, hf⟩
        · exact Or.inl h'
        · exact Or.inr ⟨List.mem_cons_of_mem a hm, hf⟩

theorem mem_stripChars (p : Char → Bool) (l : List Char) (c : Char)
    (h : c ∈ stripChars p l) : c ∈ l := by
  simp only [stripChars, List.mem_reverse] at h
  have h1 := (List.dropWhile_suffix p).sublist.mem h
  rw [List.mem_reverse] at h1
  exact (List.dropWhile_suffix p).sublist.mem h1

theorem slugifyChars_class (l : List Char) :
    ∀ c ∈ slugifyChars l, slugChar c = true := by
  intro c hc
  simp only [slugifyChars] at hc
  have h4 := mem_stripChars _ _ _ hc
  rcases mem_squashRuns _ _ _ _ _ h4 with h | ⟨h3, hnh⟩
  · simp [slugChar, h]
  rcases mem_squashRuns _ _ _ _ _ h3 with h | ⟨h2, hws⟩
  · simp [slugChar, h]
  have := List.of_mem_filter h2
  simp only [Bool.or_eq_true] at this hws
  rcases this with ((hl | hd) | hs) | hh
  · simp [slugChar, hl]
  · simp [slugChar, hd]
  · exact absurd (Or.inl hs) (by simpa using hws)
  · simp [slugChar, hh]

theorem squashHyphens_chain (l : List Char) :
    ∀ b, List.Chain' (fun a c => ¬(a = '-' ∧ c = '-'))
        (squashRuns (fun c => c = '-') '-' l b)
      ∧ (b = true →
        ∀ c, (squashRuns (fun c => c = '-') '-' l b).head? = some c → c ≠ '-') := by
  induction l with
  | nil =>
    intro b
    constructor
    · simp [squashRuns]
    · intro _ c h
      simp [squashRuns] at h
  | cons a rest ih =>
    intro b
    by_cases ha : a = '-'
    · subst ha
      cases b
      · constructor
        · simp only [squashRuns]
          simp only [decide_True, if_true, Bool.false_eq_true, if_false,
            List.singleton_append]
          rw [List.chain'_cons']
          refine ⟨?_, (ih true).1⟩
          intro y hy
          have := (ih true).2 rfl y hy
          tauto
        · intro hb; cases hb
      · constructor
        · simpa [squashRuns] using (ih true).1
        · intro _ c h
          simp [squashRuns] at h
          exact (ih true).2 rfl c h
    · have hd : decide (a = '-') = false := by simpa using ha
      constructor
      · simp only [squashRuns, hd, Bool.false_eq_true, if_false]
        rw [List.chain'_cons']
        refine ⟨?_, (ih false).1⟩
        intro y _
        tauto
      · intro _ c h
        simp only [squashRuns, hd, Bool.false_eq_true, if_false, List.head?_cons,
          Option.some.injEq] at h
        subst h; exact ha

theorem head?_dropWhile_false (p : Char → Bool) (l : List Char) :
    ∀ c, (l.dropWhile p).head? = some c → p c = false := by
  induction l with
  | nil => intro c h; simp at h
  | cons a rest ih =>
    intro c h
    by_cases hp : p a
    · rw [List.dropWhile_cons_of_pos hp] at h
      exact ih c h
    · rw [List.dropWhile_cons_of_neg hp] at h
      simp only [List.head?_cons, Option.some.injEq] at h
      subst h
      simpa using hp

theorem stripChars_head (p : Char → Bool) (l : List Char) (c : Char)
    (h : (stripChars p l).head? = some c) : p c = false := by
  simp only [stripChars, List.head?_reverse] at h
  obtain ⟨t, ht⟩ := List.dropWhile_suffix (l := (l.dropWhile p).reverse) p
  by_cases hnil : (l.dropWhile p).reverse.dropWhile p = []
  · rw [hnil] at h; simp at h
  · have hgl : (l.dropWhile p).reverse.getLast? = some c := by
      rw [← ht, List.getLast?_append_of_ne_nil t hnil]; exact h
    rw [List.getLast?_reverse] at hgl
    exact head?_dropWhile_false p l c hgl

theorem stripChars_last (p : Char → Bool) (l : List Char) (c : Char)
    (h : (stripChars p l).getLast? = some c) : p c = false := by
  simp only [stripChars, List.getLast?_reverse] at h
  exact head?_dropWhile_false p _ c h

theorem chain_rev (l : List Char)
    (h : List.Chain' (fun a c => ¬(a = '-' ∧ c = '-')) l) :
    List.Chain' (fun a c => ¬(a = '-' ∧ c = '-')) l.reverse := by
  rw [List.chain'_reverse]
  exact h.imp (fun a b hab => by tauto)

theorem stripChars_chain (p : Char → Bool) (l : List Char)
    (h : List.Chain' (fun a c => ¬(a = '-' ∧ c = '-')) l) :
    List.Chain' (fun a c => ¬(a = '-' ∧ c = '-')) (stripChars p l) := by
  unfold stripChars
  exact chain_rev _ ((chain_rev _ (h.suffix (List.dropWhile_suffix p))).suffix
    (List.dropWhile_suffix p))

theorem slugifyChars_chain (l : List Char) :
    List.Chain' (fun a c => ¬(a = '-' ∧ c = '-')) (slugifyChars l) := by
  simp only [slugifyChars]
  exact stripChars_chain _ _ ((squashHyphens_chain _ false).1)

theorem slugifyChars_head (l : List Char) :
    ∀ c, (slugifyChars l).head? = some c → c ≠ '-' := by
  intro c h
  simp only [slugifyChars] at h
  have := stripChars_head (fun c => c = '-') _ c h
  simpa using this

theorem slugifyChars_last (l : List Char) :
    ∀ c, (slugifyChars l).getLast? = some c → c ≠ '-' := by
  intro c h
  simp only [slugifyChars] at h
  have := stripChars_last (fun c => c = '-') _ c h
  simpa using this

theorem pyLower_fixed (c : Char) (h : slugChar c = true) : pyLower c = c := by
  by_cases hAZ : ('A' ≤ c && c ≤ 'Z') = true
  · exfalso
    simp only [Bool.and_eq_true, decide_eq_true_eq] at hAZ
    obtain ⟨h1, h2⟩ := hAZ
    simp only [slugChar, isLowerAZ, isDigit09, Bool.or_eq_true, Bool.and_eq_true,
      decide_eq_true_eq] at h
    rcases h with (⟨ha, _⟩ | ⟨_, hb⟩) | hc
    · exact absurd (le_trans ha h2) (by decide)
    · exact absurd (le_trans h1 hb) (by decide)
    · subst hc; exact absurd h1 (by decide)
  · have : ('A' ≤ c && c ≤ 'Z') = false := by simpa using hAZ
    simp [pyLower, this]

theorem map_id_of_fixed {α : Type} {f : α → α} :
    ∀ l : List α, (∀ c ∈ l, f c = c) → l.map f = l := by
  intro l
  induction l with
  | nil => intro _; rfl
  | cons a rest ih =>
    intro h
    simp only [List.map_cons, h a (List.mem_cons_self a rest)]
    rw [ih (fun c hc => h c (List.mem_cons_of_mem a hc))]

theorem slugChar_not_space (c : Char) (h : slugChar c = true) : isSpaceChar c = false := by
  by_cases hs : isSpaceChar c = true
  · exfalso
    simp only [isSpaceChar, Bool.or_eq_true, decide_eq_true_eq] at hs
    rcases hs with ((((h1 | h1) | h1) | h1) | h1) | h1 <;> subst h1 <;>
      exact absurd h (by decide)
  · simpa using hs

theorem slugChar_not_wsu (c : Char) (h : slugChar c = true) :
    (isSpaceChar c || c = '_') = false := by
  have h1 := slugChar_not_space c h
  have h2 : (c = '_') = False := by
    by_cases hu : c = '_'
    · subst hu; exact absurd h (by decide)
    · simpa using hu
  simp [h1, h2]

theorem dropWhile_all_false (p : Char → Bool) (l : List Char)
    (h : ∀ c ∈ l, p c = false) : l.dropWhile p = l := by
  cases l with
  | nil => rfl
  | cons a rest =>
    have := h a (List.mem_cons_self a rest)
    rw [List.dropWhile_cons_of_neg (by simp [this])]

theorem stripChars_all_false (p : Char → Bool) (l : List Char)
    (h : ∀ c ∈ l, p c = false) : stripChars p l = l := by
  unfold stripChars
  rw [dropWhile_all_false p l h]
  rw [dropWhile_all_false p l.reverse (fun c hc => h c (List.mem_reverse.mp hc))]
  exact List.reverse_reverse l

theorem squashRuns_all_false (p : Char → Bool) (o : Char) (l : List Char)
    (h : ∀ c ∈ l, p c = false) : ∀ b, squashRuns p o l b = l := by
  induction l with
  | nil => intro _; rfl
  | cons a rest ih =>
    intro b
    have ha := h a (List.mem_cons_self a rest)
    simp only [squashRuns, ha, Bool.false_eq_true, if_false]
    rw [ih (fun c hc => h c (List.mem_cons_of_mem a hc)) false]

theorem squashHyphens_id (l : List Char)
    (hch : List.Chain' (fun a c => ¬(a = '-' ∧ c = '-')) l) :
    ∀ b, (b = true → ∀ c, l.head? = some c → c ≠ '-') →
      squashRuns (fun c => c = '-') '-' l b = l := by
  induction l with
  | nil => intro _ _; rfl
  | cons a rest ih =>
    intro b hb
    rw [List.chain'_cons'] at hch
    by_cases ha : a = '-'
    · cases b
      · subst ha
        simp only [squashRuns, decide_True, if_true, Bool.false_eq_true, if_false,
          List.singleton_append, List.cons.injEq, true_and]
        exact ih hch.2 true
          (fun _ c hc hc' => (hch.1 c hc) ⟨rfl, hc'⟩)
      · exact absurd ha (hb rfl a rfl)
    · have hd : decide (a = '-') = false := by simpa using ha
      simp only [squashRuns, hd, Bool.false_eq_true, if_false, List.cons.injEq, true_and]
      exact ih hch.2 false (fun hf => absurd hf (by simp))

theorem dropWhile_head_false (p : Char → Bool) (l : List Char)
    (h : ∀ c, l.head? = some c → p c = false) : l.dropWhile p = l := by
  cases l with
  | nil => rfl
  | cons a rest =>
    have := h a rfl
    rw [List.dropWhile_cons_of_neg (by simp [this])]

theorem stripChars_head_last_id (p : Char → Bool) (l : List Char)
    (hh : ∀ c, l.head? = some c → p c = false)
    (hl : ∀ c, l.getLast? = some c → p c = false) :
    stripChars p l = l := by
  unfold stripChars
  rw [dropWhile_head_false p l hh]
  rw [dropWhile_head_false p l.reverse
    (fun c hc => hl c (by rwa [List.head?_reverse] at hc))]
  exact List.reverse_reverse l

theorem slugifyChars_idem (l : List Char) :
    slugifyChars (slugifyChars l) = slugifyChars l := by
  have hcl := slugifyChars_class l
  have h0 : (slugifyChars l).map pyLower = slugifyChars l :=
    map_id_of_fixed _ (fun c hc => pyLower_fixed c (hcl c hc))
  have h1 : stripChars isSpaceChar (slugifyChars l) = slugifyChars l :=
    stripChars_all_false _ _ (fun c hc => slugChar_not_space c (hcl c hc))
  have h2 : (slugifyChars l).filter
      (fun c => isLowerAZ c || isDigit09 c || isSpaceChar c || c = '-') = slugifyChars l := by
    apply List.filter_eq_self.mpr
    intro c hc
    have := hcl c hc
    simp only [slugChar, Bool.or_eq_true] at this
    simp only [Bool.or_eq_true]
    rcases this with (hl | hd) | hh
    · exact Or.inl (Or.inl (Or.inl hl))
    · exact Or.inl (Or.inl (Or.inr hd))
    · exact Or.inr hh
  have h3 : squashRuns (fun c => isSpaceChar c || c = '_') '-' (slugifyChars l) false
      = slugifyChars l :=
    squashRuns_all_false _ _ _ (fun c hc => slugChar_not_wsu c (hcl c hc)) false
  have h4 : squashRuns (fun c => c = '-') '-' (slugifyChars l) false = slugifyChars l :=
    squashHyphens_id _ (slugifyChars_chain l) false (fun hf => absurd hf (by simp))
  have h5 : stripChars (fun c => c = '-') (slugifyChars l) = slugifyChars l := by
    apply stripChars_head_last_id
    · intro c hc; simpa using slugifyChars_head l c hc
    · intro c hc; simpa using slugifyChars_last l c hc
  show stripChars (fun c => c = '-')
      (squashRuns (fun c => c = '-') '-'
        (squashRuns (fun c => isSpaceChar c || c = '_') '-'
          ((stripChars isSpaceChar ((slugifyChars l).map pyLower)).filter
            (fun c => isLowerAZ c || isDigit09 c || isSpaceChar c || c = '-'))
          false)
        false)
      = slugifyChars l
  rw [h0, h1, h2, h3, h4, h5]

/-! ## Claim C9 — slugify idempotence and output shape -/

/-- C9: `_slugify` is idempotent, and its output contains only lowercase
letters, digits and hyphens, with no two consecutive hyphens and no leading
or trailing hyphen. -/
theorem c9_slugify_idempotent (name : String) :
    _slugify (_slugify name) = _slugify name
    ∧ (∀ c ∈ (_slugify name).toList, slugChar c = true)
    ∧ noDoubleHyphen (_slugify name).toList
    ∧ (∀ c, (_slugify name).toList.head? = some c → c ≠ '-')
    ∧ (∀ c, (_slugify name).toList.getLast? = some c → c ≠ '-') := by
  refine ⟨?_, ?_, ?_, ?_, ?_⟩
  · show (⟨slugifyChars (slugifyChars name.toList)⟩ : String) = ⟨slugifyChars name.toList⟩
    rw [slugifyChars_idem]
  · exact fun c hc => slugifyChars_class name.toList c hc
  · exact slugifyChars_chain name.toList
  · exact slugifyChars_head name.toList
  · exact slugifyChars_last name.toList

/-- Witness for `c9_slugify_idempotent` at a concrete name. -/
theorem c9_slugify_idempotent_witness :
    _slugify "  Hello__World!! " = "helloworld"
    ∧ _slugify (_slugify "  Hello__World!! ") = _slugify "  Hello__World!! "
    ∧ slugChar 'h' = true
    ∧ 'h' ≠ '-' :=
  ⟨by decide, (c9_slugify_idempotent "  Hello__World!! ").1,
   (c9_slugify_idempotent "  Hello__World!! ").2.1 'h' (by decide),
   (c9_slugify_idempotent "  Hello__World!! ").2.2.2.1 'h' (by decide)⟩

/-! ## Claim C6 — stub page classification -/

/-- C6 counterexample: content of 10 lines of which only two are non-blank.
The claim classifies it a stub (fewer than 10 non-blank lines), but
`_is_stub_page` counts every line of the trimmed content — blank interior
lines included — sees 10, and classifies the page implemented. -/
theorem c6_counterexample :
    _is_stub_page "a\n\n\n\n\n\n\n\n\nb" = false
    ∧ stubClaimed "a\n\n\n\n\n\n\n\n\nb" = true := by
  decide

/-- C6 (amended): a page is classified a stub exactly when its content has
fewer than 10 lines — counting blank interior lines, after trimming leading
and trailing whitespace — or it contains "coming soon" case-insensitively
and has fewer than 30 such lines. -/
theorem c6_stub_rule (content : String) :
    _is_stub_page content = stubSpecAmended content := by
  simp only [_is_stub_page, stubSpecAmended]
  by_cases h1 : (splitLines (stripChars isSpaceChar content.toList)).length < 10
  · simp [h1]
  · by_cases h2 : subOf ("coming soon".toList) (content.toList.map pyLower) = true
    · simp [h1, h2]
    · have h2' : subOf ("coming soon".toList) (content.toList.map pyLower) = false := by
        simpa using h2
      simp [h1, h2']

/-! ## state.py — merge_scan and resolve_feature -/

/-- The scan state (state.py `_empty_state`), restricted to the fields
`merge_scan` and `resolve_feature` read or write.  `stats` is derived data,
recomputed from the features by `_recompute_stats` via `compute_completion`,
so the state carries the features themselves; the features dict is an
association list in insertion order, keyed by the feature `id` field. -/
structure ScanState where
  last_scan : Option String
  scan_count : Nat
  source_file : Option String
  features : List Feature
deriving Repr, DecidableEq

/-- The in-place update of an existing feature from a fresh one (state.py
lines 156-161): last-seen timestamp, tier, summary and detail; never
status. -/
def updateExisting (old : Feature) (f : Feature) (now : String) : Feature :=
  { old with last_seen := now, tier := f.tier, summary := f.summary, detail := f.detail }

/-- The first loop of `merge_scan` (state.py lines 151-164): walk the fresh
features; an id already present updates that entry in place, a new id is
appended with a count of insertions. -/
def mergeLoop (acc : List Feature) (fresh : List Feature) (now : String) :
    List Feature × Nat :=
  match fresh with
  | [] => (acc, 0)
  | f :: rest =>
    if acc.any (fun old => old.id = f.id) then
      mergeLoop (acc.map (fun old => if old.id = f.id then updateExisting old f now else old))
        rest now
    else
      let r := mergeLoop (acc ++ [f]) rest now
      (r.1, r.2 + 1)

/-- The second loop of `merge_scan` (state.py lines 166-171): a feature
whose id is absent from the fresh scan and whose status is "open" becomes
"removed_from_design". -/
def removeAbsent (feats : List Feature) (currentIds : List String) : List Feature :=
  feats.map (fun old =>
    if ¬ currentIds.contains old.id ∧ old.status = "open" then
      { old with status := "removed_from_design" }
    else old)

/-- The `removed` counter of the same loop. -/
def removedCount (feats : List Feature) (currentIds : List String) : Nat :=
  feats.countP (fun old => ¬ currentIds.contains old.id ∧ old.status = "open")

/-- The diff summary returned by `merge_scan` (state.py lines 175-179). -/
structure Diff where
  new : Nat
  removed : Nat
  total : Nat
deriving Repr, DecidableEq

/-- `merge_scan` (state.py lines 139-179). -/
def merge_scan (state : ScanState) (features : List Feature) (source_file : String)
    (now : String) : ScanState × Diff :=
  let st1 : ScanState :=
    { state with
      last_scan := some now
      scan_count := state.scan_count + 1
      source_file := if source_file ≠ "" then some source_file else state.source_file }
  let r := mergeLoop st1.features features now
  let currentIds := features.map (fun f => f.id)
  ({ st1 with features := removeAbsent r.1 currentIds },
   { new := r.2
     removed := removedCount r.1 currentIds
     total := currentIds.dedup.length })

/-- Does a feature match a resolve pattern (state.py line 191)?  Exact id
match, originating-node (screen) id match, or the pattern as a substring of
the id. -/
def matchesPattern (f : Feature) (pattern : String) : Prop :=
  f.id = pattern ∨ f.screen_id = pattern ∨ subOf pattern.toList f.id.toList = true

instance (f : Feature) (pattern : String) : Decidable (matchesPattern f pattern) := by
  unfold matchesPattern
  infer_instance

/-- The loop of `resolve_feature` (state.py lines 187-193), returning the
rewritten features and the resolved ids in iteration order. -/
def resolveLoop (feats : List Feature) (pattern status : String) :
    List Feature × List String :=
  match feats with
  | [] => ([], [])
  | f :: rest =>
    let r := resolveLoop rest pattern status
    if f.status = "open" ∧ matchesPattern f pattern then
      ({ f with status := status } :: r.1, f.id :: r.2)
    else
      (f :: r.1, r.2)

/-- `resolve_feature` (state.py lines 182-195). -/
def resolve_feature (state : ScanState) (pattern status : String) :
    ScanState × List String :=
  let r := resolveLoop state.features pattern status
  ({ state with features := r.1 }, r.2)

/-! ## Claim C3 — resolve touches exactly the matching open features -/

/-- C3: `resolve_feature` sets the status of exactly those features that are
currently open and match the pattern (id equality, screen-id equality, or
substring of the id); non-open features are never modified, and the returned
list is exactly the ids so changed — empty when nothing matches. -/
theorem c3_resolve_feature (state : ScanState) (pattern status : String) :
    (resolve_feature state pattern status).1.features
      = state.features.map (fun f =>
          if f.status = "open" ∧ matchesPattern f pattern
          then { f with status := status } else f)
    ∧ (resolve_feature state pattern status).2
      = (state.features.filter
          (fun f => f.status = "open" ∧ matchesPattern f pattern)).map (fun f => f.id) := by
  simp only [resolve_feature]
  induction state.features with
  | nil => exact ⟨rfl, rfl⟩
  | cons f rest ih =>
    by_cases h : f.status = "open" ∧ matchesPattern f pattern
    · have hd : decide (f.status = "open" ∧ matchesPattern f pattern) = true := by
        simpa using h
      simp only [resolveLoop, if_pos h, List.map_cons, List.filter_cons, hd]
      constructor
      · rw [ih.1]
      · simp [ih.2]
    · have hd : decide (f.status = "open" ∧ matchesPattern f pattern) = false := by
        simpa using h
      simp only [resolveLoop, if_neg h, List.map_cons, List.filter_cons, hd]
      constructor
      · rw [ih.1]
      · simpa using ih.2

/-! ## Lemmas about merge_scan -/

theorem filter_map_comm {α : Type} (g : α → α) (p : α → Bool)
    (hpg : ∀ x, p (g x) = p x) :
    ∀ l : List α, (l.map g).filter p = (l.filter p).map g := by
  intro l
  induction l with
  | nil => rfl
  | cons a rest ih =>
    by_cases ha : p a = true
    · simp only [List.map_cons, List.filter_cons, hpg a, ha, if_true, List.map_cons, ih]
    · have ha' : p a = false := by simpa using ha
      simp only [List.map_cons, List.filter_cons, hpg a, ha', Bool.false_eq_true, if_false, ih]

theorem updateExisting_id (old f : Feature) (now : String) :
    (updateExisting old f now).id = old.id := rfl

theorem mergeStep_id (f old : Feature) (now : String) :
    (if old.id = f.id then updateExisting old f now else old).id = old.id := by
  by_cases h : old.id = f.id <;> simp [h, updateExisting]

theorem mergeLoop_filter_absent (S : List String) :
    ∀ (fresh acc : List Feature) (now : String),
      (∀ f ∈ fresh, S.contains f.id = true) →
      (mergeLoop acc fresh now).1.filter (fun f => ¬ S.contains f.id)
        = acc.filter (fun f => ¬ S.contains f.id) := by
  intro fresh
  induction fresh with
  | nil => intro acc now _; rfl
  | cons f rest ih =>
    intro acc now hS
    have hf : S.contains f.id = true := hS f (List.mem_cons_self f rest)
    have hrest : ∀ x ∈ rest, S.contains x.id = true :=
      fun x hx => hS x (List.mem_cons_of_mem f hx)
    by_cases hp : acc.any (fun old => old.id = f.id) = true
    · simp only [mergeLoop, hp, if_true]
      rw [ih _ now hrest]
      rw [filter_map_comm _ _ (fun x => by rw [mergeStep_id])]
      apply map_id_of_fixed
      intro x hx
      have hxp := List.of_mem_filter hx
      simp only [decide_eq_true_eq] at hxp
      have : x.id ≠ f.id := fun he => hxp (he ▸ hf)
      simp [this]
    · have hp' : acc.any (fun old => old.id = f.id) = false := by simpa using hp
      simp only [mergeLoop, hp', Bool.false_eq_true, if_false]
      rw [ih _ now hrest]
      rw [List.filter_append]
      have hfmem : f.id ∈ S := by simpa using hf
      have : [f].filter (fun x => ¬ S.contains x.id) = [] := by
        simp [hfmem]
      rw [this, List.append_nil]

/-! ## Claim C1 — removal semantics -/

/-- C1: after `merge_scan`, among the previously-known features whose id is
absent from the fresh scan, exactly those whose status was "open" become
"removed_from_design" while every other status is kept unchanged, and the
diff's removed counter equals the number of features so transitioned. -/
theorem c1_removed_semantics (state : ScanState) (fresh : List Feature)
    (source_file now : String) :
    ((merge_scan state fresh source_file now).1.features.filter
        (fun f => ¬ (fresh.map (fun g => g.id)).contains f.id))
      = ((state.features.filter
          (fun f => ¬ (fresh.map (fun g => g.id)).contains f.id)).map
          (fun f => if f.status = "open"
            then { f with status := "removed_from_design" } else f))
    ∧ (merge_scan state fresh source_file now).2.removed
      = ((state.features.filter
          (fun f => ¬ (fresh.map (fun g => g.id)).contains f.id)).countP
          (fun f => f.status = "open")) := by
  have hS : ∀ f ∈ fresh, (fresh.map (fun g => g.id)).contains f.id = true := by
    intro f hf
    exact List.elem_eq_true_of_mem (List.mem_map_of_mem (fun g => g.id) hf)
  have hfm := mergeLoop_filter_absent (fresh.map (fun g => g.id)) fresh state.features now hS
  constructor
  · simp only [merge_scan, removeAbsent]
    rw [filter_map_comm
      (fun old : Feature =>
        if ¬ (fresh.map (fun g => g.id)).contains old.id ∧ old.status = "open"
        then { old with status := "removed_from_design" } else old)
      (fun f : Feature => ¬ (fresh.map (fun g => g.id)).contains f.id)
      (fun x => by
        by_cases h : ¬ (fresh.map (fun g => g.id)).contains x.id ∧ x.status = "open"
        · simp only [if_pos h]
        · simp only [if_neg h]), hfm]
    apply List.map_congr_left
    intro x hx
    have hxp := List.of_mem_filter hx
    simp only [decide_eq_true_eq] at hxp
    by_cases ho : x.status = "open"
    · rw [if_pos ⟨hxp, ho⟩, if_pos ho]
    · rw [if_neg (fun hc => ho hc.2), if_neg ho]
  · simp only [merge_scan, removedCount]
    have hcong : ∀ x ∈ (mergeLoop state.features fresh now).1,
        (decide (¬ (fresh.map (fun g => g.id)).contains x.id ∧ x.status = "open")) = true
        ↔ ((fun f : Feature => decide (f.status = "open")) x
            && (fun f : Feature => decide (¬ (fresh.map (fun g => g.id)).contains f.id)) x)
              = true := by
      intro x _
      simp [and_comm]
    rw [List.countP_congr hcong, ← List.countP_filter, hfm]

/-! ## Lemmas for merge_scan idempotence -/

theorem any_map_id_pres {g : Feature → Feature} (hg : ∀ x, (g x).id = x.id)
    (l : List Feature) (s : String) :
    (l.map g).any (fun old => old.id = s) = l.any (fun old => old.id = s) := by
  rw [List.any_map]
  congr 1
  funext old
  simp [Function.comp, hg old]

theorem removeStep_id (S : List String) (old : Feature) :
    (if ¬ S.contains old.id ∧ old.status = "open"
      then { old with status := "removed_from_design" } else old).id = old.id := by
  split
  · rfl
  · rfl

theorem mergeLoop_any_mono (s : String) :
    ∀ (fresh acc : List Feature) (now : String),
      acc.any (fun old => old.id = s) = true →
      (mergeLoop acc fresh now).1.any (fun old => old.id = s) = true := by
  intro fresh
  induction fresh with
  | nil => intro acc now h; exact h
  | cons f rest ih =>
    intro acc now h
    by_cases hp : acc.any (fun old => old.id = f.id) = true
    · simp only [mergeLoop, hp, if_true]
      exact ih _ now (by rw [any_map_id_pres (fun x => mergeStep_id f x now)]; exact h)
    · have hp' : acc.any (fun old => old.id = f.id) = false := by simpa using hp
      simp only [mergeLoop, hp', Bool.false_eq_true, if_false]
      refine ih _ now ?_
      rw [List.any_append]
      simp [h]

theorem mergeLoop_any_fresh :
    ∀ (fresh acc : List Feature) (now : String) (f : Feature), f ∈ fresh →
      (mergeLoop acc fresh now).1.any (fun old => old.id = f.id) = true := by
  intro fresh
  induction fresh with
  | nil => intro acc now f h; simp at h
  | cons g rest ih =>
    intro acc now f hf
    by_cases hp : acc.any (fun old => old.id = g.id) = true
    · simp only [mergeLoop, hp, if_true]
      rcases List.mem_cons.mp hf with he | hm
      · subst he
        exact mergeLoop_any_mono _ rest _ now
          (by rw [any_map_id_pres (fun x => mergeStep_id f x now)]; exact hp)
      · exact ih _ now f hm
    · have hp' : acc.any (fun old => old.id = g.id) = false := by simpa using hp
      simp only [mergeLoop, hp', Bool.false_eq_true, if_false]
      rcases List.mem_cons.mp hf with he | hm
      · subst he
        refine mergeLoop_any_mono _ rest _ now ?_
        rw [List.any_append]
        simp
      · exact ih _ now f hm

theorem mergeLoop_no_insert :
    ∀ (fresh acc : List Feature) (now : String),
      (∀ f ∈ fresh, acc.any (fun old => old.id = f.id) = true) →
      (mergeLoop acc fresh now).2 = 0
      ∧ (mergeLoop acc fresh now).1.map (fun x => (x.id, x.status))
        = acc.map (fun x => (x.id, x.status)) := by
  intro fresh
  induction fresh with
  | nil => intro acc now _; exact ⟨rfl, rfl⟩
  | cons f rest ih =>
    intro acc now hall
    have hp := hall f (List.mem_cons_self f rest)
    simp only [mergeLoop, hp, if_true]
    have hrest : ∀ g ∈ rest,
        ((acc.map (fun old => if old.id = f.id then updateExisting old f now else old)).any
          (fun old => old.id = g.id)) = true := by
      intro g hg
      rw [any_map_id_pres (fun x => mergeStep_id f x now)]
      exact hall g (List.mem_cons_of_mem f hg)
    obtain ⟨h1, h2⟩ := ih _ now hrest
    refine ⟨h1, ?_⟩
    rw [h2, List.map_map]
    apply List.map_congr_left
    intro x _
    by_cases h : x.id = f.id <;> simp [Function.comp, h, updateExisting]

theorem removeAbsent_not_open (M : List Feature) (S : List String) :
    ∀ y ∈ removeAbsent M S, ¬ S.contains y.id = true → y.status ≠ "open" := by
  intro y hy hnc
  unfold removeAbsent at hy
  rcases List.mem_map.mp hy with ⟨z, hz, hzy⟩
  by_cases h : ¬ S.contains z.id = true ∧ z.status = "open"
  · rw [if_pos h] at hzy
    intro ho
    rw [← hzy] at ho
    exact absurd (show ("removed_from_design" : String) = "open" from ho) (by decide)
  · rw [if_neg h] at hzy
    subst hzy
    intro ho
    exact h ⟨hnc, ho⟩

/-! ## Claim C4 — a second merge with the same fresh set is a no-op -/

/-- C4: running `merge_scan` a second time with the same fresh feature list
immediately after a first run reports new = 0, and no feature's status
differs between the end of the first run and the end of the second run. -/
theorem c4_merge_scan_idempotent (state : ScanState) (fresh : List Feature)
    (sf1 sf2 now1 now2 : String) :
    (merge_scan (merge_scan state fresh sf1 now1).1 fresh sf2 now2).2.new = 0
    ∧ (merge_scan (merge_scan state fresh sf1 now1).1 fresh sf2 now2).1.features.map
        (fun f => f.status)
      = (merge_scan state fresh sf1 now1).1.features.map (fun f => f.status) := by
  have hr1f : (merge_scan state fresh sf1 now1).1.features
      = removeAbsent (mergeLoop state.features fresh now1).1
          (fresh.map (fun f => f.id)) := rfl
  have hpresent : ∀ f ∈ fresh,
      ((merge_scan state fresh sf1 now1).1.features.any
        (fun old => old.id = f.id)) = true := by
    intro f hf
    rw [hr1f]
    unfold removeAbsent
    rw [any_map_id_pres (removeStep_id _)]
    exact mergeLoop_any_fresh fresh state.features now1 f hf
  obtain ⟨hnew, hpairs⟩ :=
    mergeLoop_no_insert fresh (merge_scan state fresh sf1 now1).1.features now2 hpresent
  have hM2notopen : ∀ x ∈ (mergeLoop (merge_scan state fresh sf1 now1).1.features
      fresh now2).1, ¬ (fresh.map (fun f => f.id)).contains x.id = true →
      x.status ≠ "open" := by
    intro x hx hnc
    have hmem : (x.id, x.status) ∈ ((merge_scan state fresh sf1 now1).1.features.map
        (fun x => (x.id, x.status))) := by
      rw [← hpairs]
      exact List.mem_map_of_mem _ hx
    rcases List.mem_map.mp hmem with ⟨y, hy, hyp⟩
    have hid : y.id = x.id := congrArg Prod.fst hyp
    have hst : y.status = x.status := congrArg Prod.snd hyp
    rw [hr1f] at hy
    intro ho
    exact removeAbsent_not_open _ _ y hy (hid ▸ hnc) (hst.trans (ho ▸ rfl))
  have hremove_id : removeAbsent ((mergeLoop (merge_scan state fresh sf1 now1).1.features
      fresh now2).1) (fresh.map (fun f => f.id))
      = (mergeLoop (merge_scan state fresh sf1 now1).1.features fresh now2).1 := by
    unfold removeAbsent
    apply map_id_of_fixed
    intro x hx
    rw [if_neg]
    intro hc
    exact hM2notopen x hx hc.1 hc.2
  constructor
  · exact hnew
  · show (removeAbsent ((mergeLoop (merge_scan state fresh sf1 now1).1.features
        fresh now2).1) (fresh.map (fun f => f.id))).map (fun f => f.status) = _
    rw [hremove_id]
    have := congrArg (List.map Prod.snd) hpairs
    rw [List.map_map, List.map_map] at this
    exact this

/-! ## Lemmas for the in-place update (claim C2) -/

/-- The net effect of the first `merge_scan` loop on one pre-existing
feature, when the fresh ids are distinct: the unique fresh feature with the
same id (if any) is applied in place. -/
def applyFresh (fresh : List Feature) (now : String) (old : Feature) : Feature :=
  match fresh.find? (fun g => g.id = old.id) with
  | some g => updateExisting old g now
  | none => old

theorem find?_id_nodup :
    ∀ (fresh : List Feature), (fresh.map (fun g => g.id)).Nodup →
      ∀ g ∈ fresh, fresh.find? (fun x => x.id = g.id) = some g := by
  intro fresh
  induction fresh with
  | nil => intro _ g hg; simp at hg
  | cons a rest ih =>
    intro hnd g hg
    have hnin : a.id ∉ rest.map (fun g => g.id) := (List.nodup_cons.mp hnd).1
    have hnd' : (rest.map (fun g => g.id)).Nodup := (List.nodup_cons.mp hnd).2
    by_cases ha : a.id = g.id
    · rw [List.find?_cons_of_pos _ (by simpa using ha)]
      rcases List.mem_cons.mp hg with he | hm
      · rw [he]
      · exact absurd (ha ▸ List.mem_map_of_mem (fun g => g.id) hm) hnin
    · rw [List.find?_cons_of_neg _ (by simpa using ha)]
      rcases List.mem_cons.mp hg with he | hm
      · exact absurd (he ▸ rfl) (Ne.symm ha ∘ Eq.symm ∘ congrArg Feature.id ∘ Eq.symm)
      · exact ih hnd' g hm

theorem mergeLoop_eq (now : String) :
    ∀ (fresh acc : List Feature), (fresh.map (fun g => g.id)).Nodup →
      (mergeLoop acc fresh now).1
        = acc.map (applyFresh fresh now)
          ++ fresh.filter (fun g => ¬ acc.any (fun old => old.id = g.id)) := by
  intro fresh
  induction fresh with
  | nil =>
    intro acc _
    simp only [mergeLoop, List.filter_nil, List.append_nil]
    exact (map_id_of_fixed acc (fun x _ => rfl)).symm
  | cons f rest ih =>
    intro acc hnd
    have hnin : f.id ∉ rest.map (fun g => g.id) := (List.nodup_cons.mp hnd).1
    have hnd' : (rest.map (fun g => g.id)).Nodup := (List.nodup_cons.mp hnd).2
    have happly : ∀ old ∈ acc,
        applyFresh rest now (if old.id = f.id then updateExisting old f now else old)
          = applyFresh (f :: rest) now old := by
      intro old _
      by_cases hid : old.id = f.id
      · rw [if_pos hid]
        have hfind : rest.find? (fun x => x.id = (updateExisting old f now).id) = none := by
          apply List.find?_eq_none.mpr
          intro x hx
          simp only [updateExisting, decide_eq_true_eq]
          intro he
          exact hnin (hid ▸ he ▸ List.mem_map_of_mem (fun g => g.id) hx)
        have hfind2 : (f :: rest).find? (fun x => x.id = old.id) = some f :=
          List.find?_cons_of_pos _ (by simpa using hid.symm)
        simp only [applyFresh, hfind, hfind2]
      · rw [if_neg hid]
        have : (f :: rest).find? (fun x => x.id = old.id)
            = rest.find? (fun x => x.id = old.id) :=
          List.find?_cons_of_neg _ (by simpa using fun he => hid he.symm)
        simp only [applyFresh, this]
    by_cases hp : acc.any (fun old => old.id = f.id) = true
    · simp only [mergeLoop, hp, if_true]
      rw [ih _ hnd']
      have hfilter : rest.filter (fun g =>
          ¬ ((acc.map (fun old => if old.id = f.id then updateExisting old f now
            else old)).any (fun old => old.id = g.id))) =
          rest.filter (fun g => ¬ acc.any (fun old => old.id = g.id)) := by
        apply List.filter_congr
        intro g _
        rw [any_map_id_pres (fun x => mergeStep_id f x now)]
      have hhead : (f :: rest).filter (fun g => ¬ acc.any (fun old => old.id = g.id))
          = rest.filter (fun g => ¬ acc.any (fun old => old.id = g.id)) := by
        rw [List.filter_cons]
        simp [hp]
      rw [hfilter, hhead, List.map_map]
      congr 1
      apply List.map_congr_left
      intro old hold
      exact happly old hold
    · have hp' : acc.any (fun old => old.id = f.id) = false := by simpa using hp
      simp only [mergeLoop, hp', Bool.false_eq_true, if_false]
      rw [ih _ hnd']
      have hall : ∀ old ∈ acc, old.id ≠ f.id := by
        intro old hold
        have := List.any_eq_false.mp hp' old hold
        simpa using this
      have hmapacc : (acc ++ [f]).map (applyFresh rest now)
          = acc.map (applyFresh (f :: rest) now) ++ [f] := by
        rw [List.map_append]
        congr 1
        · apply List.map_congr_left
          intro old hold
          have h1 := happly old hold
          rw [if_neg (hall old hold)] at h1
          exact h1
        · simp only [List.map_cons, List.map_nil]
          have hfind : rest.find? (fun x => x.id = f.id) = none := by
            apply List.find?_eq_none.mpr
            intro x hx
            simp only [decide_eq_true_eq]
            intro he
            exact hnin (he ▸ List.mem_map_of_mem (fun g => g.id) hx)
          simp only [applyFresh, hfind]
      have hfilter : rest.filter (fun g => ¬ (acc ++ [f]).any (fun old => old.id = g.id))
          = rest.filter (fun g => ¬ acc.any (fun old => old.id = g.id)) := by
        apply List.filter_congr
        intro g hg
        have hne : f.id ≠ g.id := by
          intro he
          exact hnin (he ▸ List.mem_map_of_mem (fun x => x.id) hg)
        rw [List.any_append]
        simp [hne]
      have hhead : (f :: rest).filter (fun g => ¬ acc.any (fun old => old.id = g.id))
          = f :: rest.filter (fun g => ¬ acc.any (fun old => old.id = g.id)) := by
        rw [List.filter_cons]
        simp [hp']
      rw [hmapacc, hfilter, hhead, List.append_assoc, List.singleton_append]

/-! ## Claim C2 — fresh features with known ids update in place -/

/-- C2: when the fresh ids are distinct and a fresh feature's id already
exists in the state, `merge_scan` rewrites that feature in place to its old
value with only tier, summary, detail and last-seen overwritten from the
fresh feature — id, detector, screen-id, name, category, status and
first-seen are untouched; in particular a feature resolved to
"implemented" that is still present in the fresh set keeps that status. -/
theorem c2_update_in_place (state : ScanState) (fresh : List Feature)
    (source_file now : String) (hnd : (fresh.map (fun g => g.id)).Nodup)
    (i : Nat) (hi : i < state.features.length) (g : Feature) (hg : g ∈ fresh)
    (hid : (state.features.get ⟨i, hi⟩).id = g.id) :
    ∃ hj : i < (merge_scan state fresh source_file now).1.features.length,
      (merge_scan state fresh source_file now).1.features.get ⟨i, hj⟩
        = { state.features.get ⟨i, hi⟩ with
            tier := g.tier
            summary := g.summary
            detail := g.detail
            last_seen := now } := by
  have hml := mergeLoop_eq now fresh state.features hnd
  have hres : (merge_scan state fresh source_file now).1.features
      = removeAbsent (mergeLoop state.features fresh now).1
          (fresh.map (fun f => f.id)) := rfl
  have hlen1 : state.features.length ≤ (mergeLoop state.features fresh now).1.length := by
    rw [hml]
    simp only [List.length_append, List.length_map]
    omega
  have hlen : state.features.length
      ≤ (merge_scan state fresh source_file now).1.features.length := by
    rw [hres]
    unfold removeAbsent
    rw [List.length_map]
    exact hlen1
  refine ⟨lt_of_lt_of_le hi hlen, ?_⟩
  have happ : applyFresh fresh now (state.features.get ⟨i, hi⟩)
      = { state.features.get ⟨i, hi⟩ with
          tier := g.tier
          summary := g.summary
          detail := g.detail
          last_seen := now } := by
    have hfind := find?_id_nodup fresh hnd g hg
    rw [← hid] at hfind
    simp only [applyFresh, hfind, updateExisting]
  have hgetM : (mergeLoop state.features fresh now).1.get? i
      = some (applyFresh fresh now (state.features.get ⟨i, hi⟩)) := by
    rw [hml, List.get?_append (by rw [List.length_map]; exact hi), List.get?_map,
      List.get?_eq_get hi]
    rfl
  have hS : (fresh.map (fun f => f.id)).contains
      (applyFresh fresh now (state.features.get ⟨i, hi⟩)).id = true := by
    rw [happ]
    show (fresh.map (fun f => f.id)).contains (state.features.get ⟨i, hi⟩).id = true
    rw [hid]
    exact List.elem_eq_true_of_mem (List.mem_map_of_mem (fun f => f.id) hg)
  have hgetR : (merge_scan state fresh source_file now).1.features.get? i
      = some (applyFresh fresh now (state.features.get ⟨i, hi⟩)) := by
    rw [hres]
    unfold removeAbsent
    rw [List.get?_map, hgetM]
    rw [Option.map_some']
    rw [if_neg]
    intro hc
    exact hc.1 hS
  have hfin := List.get?_eq_get (lt_of_lt_of_le hi hlen)
  rw [hgetR] at hfin
  have heq := Option.some.inj hfin
  rw [← heq, happ]

/-- Witness data for `c2_update_in_place`: a one-feature state whose feature
is implemented, rescanned with a fresh feature of the same id. -/
def wOld : Feature :=
  ⟨"det::s1::A", "det", "s1", "A", 2, "screen", "old summary", [], "implemented",
    "t0", "t0"⟩

/-- Witness data: the fresh feature seen by the rescan. -/
def wFresh : Feature :=
  ⟨"det::s1::A", "det", "s1", "A", 3, "screen", "new summary", [("k", "v")], "open",
    "t1", "t1"⟩

/-- Witness data: the state holding `wOld`. -/
def wState : ScanState := ⟨none, 0, none, [wOld]⟩

/-- Witness for `c2_update_in_place` at the concrete state above. -/
theorem c2_update_in_place_witness :
    ∃ hj : 0 < (merge_scan wState [wFresh] "f.json" "t1").1.features.length,
      (merge_scan wState [wFresh] "f.json" "t1").1.features.get ⟨0, hj⟩
        = { wOld with
            tier := wFresh.tier
            summary := wFresh.summary
            detail := wFresh.detail
            last_seen := "t1" } :=
  c2_update_in_place wState [wFresh] "f.json" "t1" (by decide) 0 (by decide) wFresh
    (by decide) (by decide)

/-! ## pen_parser.py — untyped JSON values and node parsing -/

/-- An untyped JSON value, as deserialized from a .pen export. -/
inductive J where
  | null : J
  | bool : Bool → J
  | num : Int → J
  | str : String → J
  | arr : List J → J
  | obj : List (String × J) → J

/-- The keys `_parse_node` extracts specially (pen_parser.py line 139). -/
def skipKeys : List String := ["id", "type", "name", "children", "reusable"]

theorem lookup_sizeOf {data : List (String × J)} {k : String} {v : J}
    (h : data.lookup k = some v) : sizeOf v < sizeOf data := by
  induction data with
  | nil => simp [List.lookup] at h
  | cons a rest ih =>
    obtain ⟨ka, va⟩ := a
    rw [List.lookup_cons] at h
    by_cases hk : (k == ka) = true
    · simp only [hk] at h
      obtain rfl := Option.some.inj h
      simp only [Prod.mk.sizeOf_spec, List.cons.sizeOf_spec]
      omega
    · have hk' : (k == ka) = false := by simpa using hk
      simp only [hk'] at h
      have := ih h
      simp only [Prod.mk.sizeOf_spec, List.cons.sizeOf_spec]
      omega

/-- `PenNode` (pen_parser.py lines 33-41).  Each attribute holds the raw
JSON value `_parse_node` copied into it (Python attaches whatever value the
key had); `children` is the parsed child list. -/
inductive PenNode where
  | mk (id type name : J) (children : List PenNode)
      (properties : List (String × J)) (reusable : J) : PenNode

/-- The `id` attribute. -/
def PenNode.id : PenNode → J
  | .mk i _ _ _ _ _ => i

/-- The `type` attribute. -/
def PenNode.type : PenNode → J
  | .mk _ t _ _ _ _ => t

/-- The `name` attribute. -/
def PenNode.name : PenNode → J
  | .mk _ _ n _ _ _ => n

/-- The `children` attribute. -/
def PenNode.children : PenNode → List PenNode
  | .mk _ _ _ c _ _ => c

/-- The `properties` bag. -/
def PenNode.properties : PenNode → List (String × J)
  | .mk _ _ _ _ p _ => p

/-- The `reusable` attribute. -/
def PenNode.reusable : PenNode → J
  | .mk _ _ _ _ _ r => r

mutual

/-- `_parse_node` (pen_parser.py lines 123-149): recursively parse an
untyped JSON object into a `PenNode`, with the defaulting rules — missing
`type` becomes `"frame"`, missing `id`/`name` become `""`, missing
`reusable` becomes false, a `children` value that is not a sequence is
treated as empty, child elements that are not objects are skipped, and
every other key passes through verbatim into the property bag.  Total on
every input: the embedding of "never raises". -/
def _parse_node (data : List (String × J)) : PenNode :=
  PenNode.mk
    ((data.lookup "id").getD (J.str ""))
    ((data.lookup "type").getD (J.str "frame"))
    ((data.lookup "name").getD (J.str ""))
    (match h : data.lookup "children" with
      | some (J.arr l) => parseChildren l
      | some _ => []
      | none => [])
    (data.filter (fun kv => ¬ skipKeys.contains kv.1))
    ((data.lookup "reusable").getD (J.bool false))
termination_by sizeOf data
decreasing_by
  have hs := lookup_sizeOf h
  simp only [J.arr.sizeOf_spec] at hs
  omega

/-- The `for child_data in raw_children` loop of `_parse_node`: parse the
dict elements, skip the rest. -/
def parseChildren : List J → List PenNode
  | [] => []
  | J.obj o :: rest => _parse_node o :: parseChildren rest
  | J.null :: rest => parseChildren rest
  | J.bool _ :: rest => parseChildren rest
  | J.num _ :: rest => parseChildren rest
  | J.str _ :: rest => parseChildren rest
  | J.arr _ :: rest => parseChildren rest
termination_by l => sizeOf l

end

theorem parseChildren_filterMap (l : List J) :
    parseChildren l = l.filterMap (fun c => match c with
      | J.obj o => some (_parse_node o)
      | _ => none) := by
  induction l with
  | nil => simp [parseChildren]
  | cons c rest ih =>
    cases c <;> simp [parseChildren, List.filterMap_cons, ih]

/-! ## Claim C8 — parsing never raises and applies the defaulting rules -/

/-- C8: `_parse_node` is total on every untyped input object (the embedding
of "never raises") and applies the defaulting rules: a missing `type` key
yields type `"frame"`; missing `id` or `name` yield `""`; a `children`
value that is not a sequence, or a missing one, yields no children;
elements of a `children` sequence that are not objects are skipped; and
every key other than id, type, name, children and reusable passes through
verbatim, in order, into the property bag. -/
theorem c8_parse_node_defaults (data : List (String × J)) :
    (data.lookup "type" = none → (_parse_node data).type = J.str "frame")
    ∧ (data.lookup "id" = none → (_parse_node data).id = J.str "")
    ∧ (data.lookup "name" = none → (_parse_node data).name = J.str "")
    ∧ (∀ v, data.lookup "children" = some v → (∀ l, v ≠ J.arr l) →
        (_parse_node data).children = [])
    ∧ (data.lookup "children" = none → (_parse_node data).children = [])
    ∧ (∀ l, data.lookup "children" = some (J.arr l) →
        (_parse_node data).children = l.filterMap (fun c => match c with
          | J.obj o => some (_parse_node o)
          | _ => none))
    ∧ (_parse_node data).properties = data.filter (fun kv => ¬ skipKeys.contains kv.1) := by
  refine ⟨?_, ?_, ?_, ?_, ?_, ?_, ?_⟩
  · intro h
    simp [_parse_node, PenNode.type, h]
  · intro h
    simp [_parse_node, PenNode.id, h]
  · intro h
    simp [_parse_node, PenNode.name, h]
  · intro v hv hna
    simp only [_parse_node, PenNode.children]
    split
    · next l heq =>
      rw [hv] at heq
      exact absurd (Option.some.inj heq) (hna l)
    · rfl
    · rfl
  · intro h
    simp only [_parse_node, PenNode.children]
    split
    · next l heq => rw [h] at heq; exact Option.noConfusion heq
    · rfl
    · rfl
  · intro l hl
    have hc : (_parse_node data).children = parseChildren l := by
      simp only [_parse_node, PenNode.children]
      split <;> simp_all
    rw [hc]
    exact parseChildren_filterMap l
  · simp [_parse_node, PenNode.properties]

/-- Witness for `c8_parse_node_defaults`: a node with no `type` key, a
non-sequence `children` value and one unknown key. -/
theorem c8_parse_node_defaults_witness :
    ([(("x" : String), J.num 1), ("children", J.str "oops")].lookup "type" = none)
    ∧ (_parse_node [("x", J.num 1), ("children", J.str "oops")]).type = J.str "frame"
    ∧ (_parse_node [("x", J.num 1), ("children", J.str "oops")]).children = []
    ∧ (_parse_node [("x", J.num 1), ("children", J.str "oops")]).properties
        = [("x", J.num 1)] := by
  have h := c8_parse_node_defaults [("x", J.num 1), ("children", J.str "oops")]
  refine ⟨rfl, h.1 rfl, ?_, ?_⟩
  · exact h.2.2.2.1 (J.str "oops") rfl (fun l hl => J.noConfusion hl)
  · exact h.2.2.2.2.2.2.trans rfl

end PenAudit
